import Mathlib

/-!
Verification of the BOM / self-purchase parts-list processing toolkit.

This file gives a shallow embedding, in Lean 4, of the record resolution,
classification, deduplication and aggregation pipeline implemented by the
Python sources `process_non_self_purchase_components.py`,
`extract_bom_components.py` and `modacc_accessory_processor.py`, and proves
(or refutes) the behavioural properties stated for that pipeline.

Modelling conventions:
- a spreadsheet cell is an `Option String` (`none` models a pandas `NaN`);
- a table row is an association list from (stripped) header name to cell;
- numeric cells are coerced to `ℚ` with the zero fallback the code uses
  (`pd.to_numeric(errors:coerce).fillna(0)`);
- Python `str.strip()` is modelled by trimming the usual Unicode whitespace
  class from both ends of the character list.
-/

/-- The whitespace class stripped by Python `str.strip()` (the characters for
which `str.isspace()` holds, restricted to those a spreadsheet cell can
realistically carry): ASCII whitespace, the C1 / Unicode space separators and
the ideographic (full-width) space `U+3000`. -/
def wsChar (c : Char) : Bool :=
  c == ' ' || c == '\t' || c == '\n' || c == '\r' || c == '\x0b' || c == '\x0c' ||
  c == '\x1c' || c == '\x1d' || c == '\x1e' || c == '\x1f' || c == '\x85' || c == '\xa0' ||
  c == '\u1680' || ('\u2000' ≤ c && c ≤ '\u200A') || c == '\u2028' || c == '\u2029' ||
  c == '\u202F' || c == '\u205F' || c == '\u3000'

/-- Python `str.strip()` on a character list: drop the whitespace run at both
ends (`clean_invalid_content` line 45, and the `.str.strip()` filters of
`extract_bom_components.py` / `modacc_accessory_processor.py`). -/
def stripList (l : List Char) : List Char :=
  ((l.dropWhile wsChar).reverse.dropWhile wsChar).reverse

/-- Python `str.strip()` at the `String` level. -/
def stripString (s : String) : String :=
  String.mk (stripList s.data)

/-- The four characters removed everywhere in the value by
`clean_invalid_content` (full-width space, tab, newline, carriage return),
`process_non_self_purchase_components.py` line 47. -/
def removedChar (c : Char) : Bool :=
  c == '\u3000' || c == '\t' || c == '\n' || c == '\r'

/-- The character-list core of `clean_invalid_content`: strip, then remove
the four listed characters wherever they occur. -/
def cleanList (l : List Char) : List Char :=
  (stripList l).filter (fun c => !(removedChar c))

/-- `clean_invalid_content` (`process_non_self_purchase_components.py`
lines 36-48): `NaN` maps to `None`; otherwise the value is stripped, the
full-width space / tab / newline / carriage-return characters are removed,
and an empty result maps to `None`. -/
def clean_invalid_content (v : Option String) : Option String :=
  match v with
  | none => none
  | some s =>
    let t := cleanList s.data
    if t = [] then none else some (String.mk t)

/-- Row-level core of `judge_non_self_purchase`
(`process_non_self_purchase_components.py` lines 104-109): a row is kept as
non-self-purchase exactly when the cleaned taobao-link, order-config and
minimum-order cells are all `None`.  An unresolved column enters as `none`
(lines 91-102 set the whole cleaned column to `None` in that case). -/
def judge_non_self_purchase (taobao orderCfg minOrder : Option String) : Bool :=
  (clean_invalid_content taobao).isNone &&
  (clean_invalid_content orderCfg).isNone &&
  (clean_invalid_content minOrder).isNone

/-- The self-purchase cell test of `extract_bom_components.py` line 66 and
`modacc_accessory_processor.py` line 87: the cell is not `NaN` and does not
strip to the empty string. -/
def cellHasContent (v : Option String) : Bool :=
  match v with
  | none => false
  | some s => !(stripString s == "")

/-- Spec-side predicate: the cell is absent or normalizes to the empty string
after whitespace trimming, i.e. every character of it is whitespace-class. -/
def normalizesToEmpty (v : Option String) : Prop :=
  ∀ c ∈ (v.getD "").data, wsChar c = true

instance (v : Option String) : Decidable (normalizesToEmpty v) := by
  unfold normalizesToEmpty; infer_instance

theorem removedChar_ws {c : Char} (h : removedChar c = true) : wsChar c = true := by
  simp only [removedChar, Bool.or_eq_true, beq_iff_eq] at h
  rcases h with ((h | h) | h) | h <;> subst h <;> rfl

theorem stripList_eq_nil_iff (l : List Char) :
    stripList l = [] ↔ ∀ c ∈ l, wsChar c = true := by
  unfold stripList
  constructor
  · intro h c hc
    rw [List.reverse_eq_nil_iff, List.dropWhile_eq_nil_iff] at h
    by_cases hw : wsChar c = true
    · exact hw
    · exfalso
      have hmem : c ∈ (l.dropWhile wsChar) := by
        have hsplit := List.takeWhile_append_dropWhile wsChar l
        have : c ∈ l.takeWhile wsChar ∨ c ∈ l.dropWhile wsChar := by
          rw [← List.mem_append, hsplit]; exact hc
        rcases this with h1 | h1
        · exact absurd (List.mem_takeWhile_imp h1) hw
        · exact h1
      exact hw (h c (List.mem_reverse.mpr hmem))
  · intro h
    have h1 : l.dropWhile wsChar = [] := by
      rw [List.dropWhile_eq_nil_iff]; exact h
    simp [h1]

theorem cleanList_eq_nil_iff (l : List Char) :
    cleanList l = [] ↔ ∀ c ∈ l, wsChar c = true := by
  unfold cleanList
  constructor
  · intro h
    rw [List.filter_eq_nil_iff] at h
    rw [← stripList_eq_nil_iff]
    by_cases hs : stripList l = []
    · exact hs
    · exfalso
      -- the stripped list is nonempty, so its chars are all among the four
      -- removed characters, hence all whitespace; but then strip is empty
      have hall : ∀ c ∈ stripList l, wsChar c = true := by
        intro c hc
        have := h c hc
        simp only [Bool.not_eq_true', Bool.not_eq_false] at this
        exact removedChar_ws this
      -- every char of the stripped list is ws; show the whole list is ws
      have hl : ∀ c ∈ l, wsChar c = true := by
        intro c hc
        by_cases hw : wsChar c = true
        · exact hw
        · exfalso
          have hmem1 : c ∈ l.dropWhile wsChar := by
            have hsplit := List.takeWhile_append_dropWhile wsChar l
            have : c ∈ l.takeWhile wsChar ∨ c ∈ l.dropWhile wsChar := by
              rw [← List.mem_append, hsplit]; exact hc
            rcases this with h1 | h1
            · exact absurd (List.mem_takeWhile_imp h1) hw
            · exact h1
          have hmem2 : c ∈ stripList l := by
            unfold stripList
            rw [List.mem_reverse]
            have hsplit := List.takeWhile_append_dropWhile wsChar (l.dropWhile wsChar).reverse
            have : c ∈ (l.dropWhile wsChar).reverse.takeWhile wsChar ∨
                c ∈ (l.dropWhile wsChar).reverse.dropWhile wsChar := by
              rw [← List.mem_append, hsplit]
              exact List.mem_reverse.mpr hmem1
            rcases this with h1 | h1
            · exact absurd (List.mem_takeWhile_imp h1) hw
            · exact h1
          exact hw (hall c hmem2)
      exact hs ((stripList_eq_nil_iff l).mpr hl)
  · intro h
    have : stripList l = [] := (stripList_eq_nil_iff l).mpr h
    simp [this]

theorem clean_invalid_content_eq_none_iff (v : Option String) :
    clean_invalid_content v = none ↔ normalizesToEmpty v := by
  cases v with
  | none => simp [clean_invalid_content, normalizesToEmpty]
  | some s =>
    have hstep : clean_invalid_content (some s) = none ↔ cleanList s.data = [] := by
      simp only [clean_invalid_content]
      by_cases h : cleanList s.data = [] <;> simp [h]
    rw [hstep, cleanList_eq_nil_iff]
    simp [normalizesToEmpty]

/-- **C2.** The purchase classifier is total (it is a Boolean function of the
three resolved indicator cells) and a row is non-self-purchase iff all three
indicator cells (taobao link, order configuration, minimum order quantity)
are absent or normalize to the empty string after whitespace trimming; an
unresolved column (entering as `none`) is treated identically to a
present-but-empty column; and the self-purchase cell test used by the BOM and
ModAcc extractors agrees: a cell passes it iff cleaning does not erase it. -/
theorem judge_non_self_purchase_spec :
    (∀ t o m : Option String,
      judge_non_self_purchase t o m = true ↔
        (normalizesToEmpty t ∧ normalizesToEmpty o ∧ normalizesToEmpty m)) ∧
    (∀ o m, judge_non_self_purchase none o m = judge_non_self_purchase (some "") o m) ∧
    (∀ t m, judge_non_self_purchase t none m = judge_non_self_purchase t (some "") m) ∧
    (∀ t o, judge_non_self_purchase t o none = judge_non_self_purchase t o (some "")) ∧
    (∀ v : Option String, cellHasContent v = !(clean_invalid_content v).isNone) := by
  have hempty : clean_invalid_content (some "") = none := by rfl
  have hnone : clean_invalid_content none = none := rfl
  refine ⟨?_, ?_, ?_, ?_, ?_⟩
  · intro t o m
    simp only [judge_non_self_purchase, Bool.and_eq_true, Option.isNone_iff_eq_none,
      clean_invalid_content_eq_none_iff]
    tauto
  · intro o m; simp only [judge_non_self_purchase, hempty, hnone]
  · intro t m; simp only [judge_non_self_purchase, hempty, hnone]
  · intro t o; simp only [judge_non_self_purchase, hempty, hnone]
  · intro v
    cases v with
    | none => rfl
    | some s =>
      simp only [cellHasContent]
      by_cases h : stripList s.data = []
      · have hws := (stripList_eq_nil_iff s.data).mp h
        have : clean_invalid_content (some s) = none := by
          rw [clean_invalid_content_eq_none_iff]
          intro c hc; exact hws c hc
        simp [this, stripString, h]
      · have : clean_invalid_content (some s) ≠ none := by
          rw [Ne, clean_invalid_content_eq_none_iff]
          intro hall
          exact h ((stripList_eq_nil_iff s.data).mpr
            (fun c hc => hall c (by simpa using hc)))
        rcases Option.ne_none_iff_exists.mp this with ⟨w, hw⟩
        have hne : ¬(String.mk (stripList s.data) = String.mk []) := by
          intro hcontra
          apply h
          have := congrArg String.data hcontra
          simpa using this
        simp only [← hw, Option.isNone_some, Bool.not_false]
        simp only [stripString]
        have : (String.mk (stripList s.data) == "") = false := by
          rw [beq_eq_false_iff_ne]
          intro hcontra
          exact hne (by simpa using hcontra)
        simp [this]

/-- Python startswith on character lists: `leadMatch n h` holds when `n` is
an initial segment of `h`. -/
def leadMatch : List Char → List Char → Bool
  | [], _ => true
  | _ :: _, [] => false
  | a :: as, b :: bs => a == b && leadMatch as bs

/-- Python substring containment `n in h` on character lists (the empty
needle is contained in everything). -/
def subMatch (n : List Char) : List Char → Bool
  | [] => leadMatch n []
  | b :: bs => leadMatch n (b :: bs) || subMatch n bs

/-- Python `str.lower()` (ASCII case mapping suffices for the header variants
the code uses). -/
def lowerString (s : String) : String :=
  String.mk (s.data.map Char.toLower)

/-- Case-insensitive containment test used by `match_column_name` line 62:
the lower-cased target occurs inside the lower-cased column header. -/
def containsCI (header target : String) : Bool :=
  subMatch (lowerString target).data (lowerString header).data

/-- Inner loop of `match_column_name`
(`process_non_self_purchase_components.py` lines 61-63): scan the
`(original, lowered)` header pairs in column order and return the first
original header whose lowered form contains `tl`. -/
def matchOneTarget (tl : String) (pairs : List (String × String)) : Option String :=
  (pairs.find? (fun p => subMatch tl.data p.2.data)).map Prod.fst

/-- Outer loop of `match_column_name` (lines 59-64): try each target variant
in listed priority order. -/
def matchTargets (pairs : List (String × String)) : List String → Option String
  | [] => none
  | t :: ts =>
    match matchOneTarget (lowerString t) pairs with
    | some c => some c
    | none => matchTargets pairs ts

/-- `match_column_name` (`process_non_self_purchase_components.py`
lines 51-64): lower-case the headers once, then scan target variants in
priority order and headers in column order, returning the first header whose
lowered form contains the lowered variant as a substring; `None` otherwise. -/
def match_column_name (dfColumns targetNames : List String) : Option String :=
  matchTargets (dfColumns.zip (dfColumns.map lowerString)) targetNames

/-- Spec-side resolver, following the words of the contract: variants are
tried in listed priority order; for each variant the first header that
case-insensitively contains it (in original column order) is taken; the first
variant with any matching header wins, else the field is unresolved. -/
def resolveSpec (dfColumns : List String) : List String → Option String
  | [] => none
  | t :: ts =>
    match dfColumns.find? (fun c => containsCI c t) with
    | some c => some c
    | none => resolveSpec dfColumns ts

theorem matchOneTarget_eq_find (tl : String) (cols : List String) :
    matchOneTarget tl (cols.zip (cols.map lowerString)) =
      cols.find? (fun c => subMatch tl.data (lowerString c).data) := by
  induction cols with
  | nil => rfl
  | cons c cs ih =>
    simp only [List.map_cons, List.zip_cons_cons, matchOneTarget, List.find?]
    by_cases h : subMatch tl.data (lowerString c).data = true
    · simp [h]
    · simp only [Bool.not_eq_true] at h
      simp only [h]
      simpa [matchOneTarget] using ih

/-- **C7.** The column resolver equals the declarative description: variants
are tried in listed priority order and, for each variant, headers in original
column order; the first header case-insensitively containing the variant as a
substring wins, and the field is left unresolved exactly when no header
contains any variant.  Determinism is immediate since it is a pure
function. -/
theorem match_column_name_spec :
    (∀ dfColumns targetNames : List String,
        match_column_name dfColumns targetNames = resolveSpec dfColumns targetNames) ∧
    (∀ dfColumns targetNames : List String,
        match_column_name dfColumns targetNames = none ↔
          ∀ t ∈ targetNames, ∀ c ∈ dfColumns, containsCI c t = false) := by
  have key : ∀ dfColumns targetNames : List String,
      match_column_name dfColumns targetNames = resolveSpec dfColumns targetNames := by
    intro cols ts
    induction ts with
    | nil => rfl
    | cons t ts ih =>
      simp only [match_column_name, matchTargets, resolveSpec]
      rw [matchOneTarget_eq_find]
      have harg : (fun c => subMatch (lowerString t).data (lowerString c).data) =
          (fun c => containsCI c t) := by
        funext c; rfl
      rw [harg]
      cases hfind : cols.find? (fun c => containsCI c t) with
      | none => simpa [match_column_name] using ih
      | some c => rfl
  refine ⟨key, ?_⟩
  intro cols ts
  rw [key]
  induction ts with
  | nil => simp [resolveSpec]
  | cons t ts ih =>
    simp only [resolveSpec]
    cases hfind : cols.find? (fun c => containsCI c t) with
    | none =>
      have hnone : ∀ c ∈ cols, containsCI c t = false := by
        intro c hc
        have := List.find?_eq_none.mp hfind c hc
        simpa using this
      rw [ih]
      constructor
      · intro h t' ht' c hc
        rcases List.mem_cons.mp ht' with h1 | h1
        · subst h1; exact hnone c hc
        · exact h t' h1 c hc
      · intro h t' ht' c hc
        exact h t' (List.mem_cons_of_mem _ ht') c hc
    | some c =>
      constructor
      · intro h; exact absurd h (by simp)
      · intro h
        have hc := List.find?_some hfind
        have hmem := List.mem_of_find?_eq_some hfind
        have := h t (List.mem_cons_self _ _) c hmem
        rw [this] at hc
        exact absurd hc (by simp)

/-- Normalization applied by `classify_component` line 129 to a present
designator: `str(designator).strip().upper()`. -/
def normDesignator (s : String) : List Char :=
  (stripList s.data).map Char.toUpper

/-- `classify_component` (`process_non_self_purchase_components.py`
lines 120-147).  A missing (`NaN`) designator yields the unknown category;
otherwise the stripped upper-cased designator is classified by the literal
if/elif chain of the source: leading `R`, `C`, `LED`, `Q`, `U`, `SW`,
then containment of any of `J`, `CN`, `USB`, else the catch-all. -/
def classify_component (designator : Option String) : String :=
  match designator with
  | none => "未知（无位号）"
  | some s =>
    let u := normDesignator s
    if leadMatch ['R'] u then "电阻"
    else if leadMatch ['C'] u then "电容"
    else if leadMatch ['L', 'E', 'D'] u then "二极管"
    else if leadMatch ['Q'] u then "晶体管"
    else if leadMatch ['U'] u then "集成电路"
    else if leadMatch ['S', 'W'] u then "开关"
    else if subMatch ['J'] u || subMatch ['C', 'N'] u || subMatch ['U', 'S', 'B'] u then "连接器"
    else "其他"

/-- The fixed ordered rule table of the taxonomy, as (predicate, category)
pairs, first-match-wins; falling off the end gives the catch-all. -/
def componentRules : List ((List Char → Bool) × String) :=
  [(leadMatch ['R'], "电阻"),
   (leadMatch ['C'], "电容"),
   (leadMatch ['L', 'E', 'D'], "二极管"),
   (leadMatch ['Q'], "晶体管"),
   (leadMatch ['U'], "集成电路"),
   (leadMatch ['S', 'W'], "开关"),
   (fun u => subMatch ['J'] u || subMatch ['C', 'N'] u || subMatch ['U', 'S', 'B'] u, "连接器")]

/-- First-match-wins evaluation of an ordered rule table. -/
def evalRules : List ((List Char → Bool) × String) → List Char → String
  | [], _ => "其他"
  | r :: rest, u => if r.1 u then r.2 else evalRules rest u

/-- **C3 (counterexample).** The claim says an empty designator maps to the
unknown category, but `classify_component` only returns unknown for a missing
(`NaN`) designator: the empty string falls through every prefix/substring rule
and lands in the catch-all category `其他` (other), not `未知（无位号）`
(unknown). -/
theorem classify_component_empty_not_unknown :
    classify_component (some "") = "其他" ∧
    classify_component (some "") ≠ "未知（无位号）" := by
  constructor
  · rfl
  · intro h
    have hne : ("其他" : String) = "未知（无位号）" := by
      rw [← h]; rfl
    exact absurd hne (by decide)

/-- **C3 (amended).** The component classifier is total and returns exactly
one category by first-match-wins over the fixed rule order: a missing (`NaN`)
designator gives unknown; otherwise the stripped, upper-cased designator is
matched against the ordered rule table (R → resistor, C → capacitor,
LED → diode, Q → transistor, U → integrated circuit, SW → switch, then
containing any of J/CN/USB → connector, anything else → other).  An empty or
whitespace-only but present designator falls through all rules to the
catch-all other, not to unknown.  In particular "R101" is a resistor, "J3" a
connector, a missing designator unknown, and "X9" and "" are other. -/
theorem classify_component_spec :
    (∀ s : String, classify_component (some s) = evalRules componentRules (normDesignator s)) ∧
    classify_component none = "未知（无位号）" ∧
    classify_component (some "R101") = "电阻" ∧
    classify_component (some "J3") = "连接器" ∧
    classify_component (some "X9") = "其他" ∧
    classify_component (some "") = "其他" := by
  refine ⟨?_, rfl, rfl, rfl, rfl, rfl⟩
  intro s
  rfl

/-- Accumulator loop embedding `DataFrame.drop_duplicates(subset, keep='first')`
as used by `deduplicate_components`
(`process_non_self_purchase_components.py` line 229) and by the type-table
deduplication of `extract_bom_components.py` line 158 /
`modacc_accessory_processor.py` line 213: walk the rows in order, keeping a
row exactly when its key has not been seen yet.  pandas compares `NaN` keys
as equal, which the `Option` equality mirrors. -/
def dedupGo {α κ : Type} [DecidableEq κ] (key : α → κ) : List κ → List α → List α
  | _, [] => []
  | seen, r :: rs =>
    if key r ∈ seen then dedupGo key seen rs
    else r :: dedupGo key (key r :: seen) rs

/-- Keyed first-occurrence deduplication (the Deduplicator). -/
def dedupByKey {α κ : Type} [DecidableEq κ] (key : α → κ) (l : List α) : List α :=
  dedupGo key [] l

/-- Spec-side deduplication, following the claim's words: the first occurrence
of each key is kept with its full record unchanged, and every later record
with an equal key is removed. -/
def dedupSpec {α κ : Type} [DecidableEq κ] (key : α → κ) : List α → List α
  | [] => []
  | r :: rs => r :: dedupSpec key (rs.filter (fun x => key x ≠ key r))
termination_by l => l.length
decreasing_by
  simp only [List.length_cons]
  exact Nat.lt_succ_of_le (List.length_filter_le _ _)

theorem dedupGo_eq_spec {α κ : Type} [DecidableEq κ] (key : α → κ) :
    ∀ (l : List α) (seen : List κ),
      dedupGo key seen l = dedupSpec key (l.filter (fun x => key x ∉ seen)) := by
  intro l
  induction l with
  | nil => intro seen; simp [dedupGo, dedupSpec]
  | cons r rs ih =>
    intro seen
    by_cases h : key r ∈ seen
    · simp only [dedupGo, if_pos h, List.filter_cons, decide_eq_true_eq]
      rw [if_neg (by simpa using h)]
      exact ih seen
    · simp only [dedupGo, if_neg h, List.filter_cons, decide_eq_true_eq]
      rw [if_pos (by simpa using h)]
      have hfilter : (rs.filter (fun x => decide (key x ∉ key r :: seen))) =
          ((rs.filter (fun x => decide (key x ∉ seen))).filter
            (fun x => decide (key x ≠ key r))) := by
        rw [List.filter_filter]
        congr 1
        funext x
        by_cases h1 : key x = key r
        · simp [h1]
        · by_cases h2 : key x ∈ seen <;> simp [h1, h2]
      rw [ih (key r :: seen), hfilter]
      simp only [dedupSpec]

/-- **C5.** The deduplicator outputs exactly the records whose deduplication
key has not occurred earlier in the sequence: for each distinct key the first
occurrence is kept with its full record unchanged (no merging), and every
later record with an equal key is removed — i.e. the first-seen loop equals
the declarative keep-first / drop-later-equal-key description, for every key
function and every ordered record sequence (hence the result depends on the
input order). -/
theorem dedupByKey_eq_spec {α κ : Type} [DecidableEq κ] (key : α → κ) (l : List α) :
    dedupByKey key l = dedupSpec key l := by
  rw [dedupByKey, dedupGo_eq_spec]
  congr 1
  induction l with
  | nil => rfl
  | cons r rs ih => simp [List.filter_cons, ih]

theorem dedupGo_sub {α κ : Type} [DecidableEq κ] (key : α → κ) :
    ∀ (l : List α) (seen : List κ) (x : α), x ∈ dedupGo key seen l → x ∈ l := by
  intro l
  induction l with
  | nil => intro seen x h; exact absurd h (by simp [dedupGo])
  | cons r rs ih =>
    intro seen x h
    by_cases hk : key r ∈ seen
    · simp only [dedupGo, if_pos hk] at h
      exact List.mem_cons_of_mem _ (ih seen x h)
    · simp only [dedupGo, if_neg hk, List.mem_cons] at h
      rcases h with h | h
      · exact h ▸ List.mem_cons_self _ _
      · exact List.mem_cons_of_mem _ (ih _ x h)

theorem dedupGo_keys_fresh {α κ : Type} [DecidableEq κ] (key : α → κ) :
    ∀ (l : List α) (seen : List κ) (x : α), x ∈ dedupGo key seen l → key x ∉ seen := by
  intro l
  induction l with
  | nil => intro seen x h; exact absurd h (by simp [dedupGo])
  | cons r rs ih =>
    intro seen x h
    by_cases hk : key r ∈ seen
    · simp only [dedupGo, if_pos hk] at h
      exact ih seen x h
    · simp only [dedupGo, if_neg hk, List.mem_cons] at h
      rcases h with h | h
      · exact h ▸ hk
      · intro hmem
        exact ih _ x h (List.mem_cons_of_mem _ hmem)

theorem dedupGo_keys_nodup {α κ : Type} [DecidableEq κ] (key : α → κ) :
    ∀ (l : List α) (seen : List κ), ((dedupGo key seen l).map key).Nodup := by
  intro l
  induction l with
  | nil => intro seen; simp [dedupGo]
  | cons r rs ih =>
    intro seen
    by_cases hk : key r ∈ seen
    · simp only [dedupGo, if_pos hk]; exact ih seen
    · simp only [dedupGo, if_neg hk, List.map_cons, List.nodup_cons]
      refine ⟨?_, ih (key r :: seen)⟩
      intro hmem
      rcases List.mem_map.mp hmem with ⟨x, hx, hkx⟩
      exact dedupGo_keys_fresh key rs (key r :: seen) x hx
        (hkx ▸ List.mem_cons_self _ _)

/-- **C8.** The deduplicator is idempotent: deduplicating its own output
changes nothing, for every key function and record sequence. -/
theorem dedupByKey_idempotent {α κ : Type} [DecidableEq κ] (key : α → κ) (l : List α) :
    dedupByKey key (dedupByKey key l) = dedupByKey key l := by
  have base : ∀ (m : List α) (seen : List κ),
      ((m.map key).Nodup → (∀ x ∈ m, key x ∉ seen) → dedupGo key seen m = m) := by
    intro m
    induction m with
    | nil => intro seen _ _; rfl
    | cons r rs ih =>
      intro seen hnodup hfresh
      have hk : key r ∉ seen := hfresh r (List.mem_cons_self _ _)
      simp only [dedupGo, if_neg hk]
      congr 1
      apply ih
      · exact (List.nodup_cons.mp (by simpa using hnodup)).2
      · intro x hx
        intro hmem
        rcases List.mem_cons.mp hmem with h1 | h1
        · have : key r ∉ (rs.map key) := (List.nodup_cons.mp (by simpa using hnodup)).1
          exact this (h1 ▸ List.mem_map_of_mem key hx)
        · exact hfresh x (List.mem_cons_of_mem _ hx) h1
  exact base (dedupByKey key l) [] (dedupGo_keys_nodup key l []) (by simp)

/-- A canonical record of the non-self-purchase pipeline after
`process_bom_file` renames the matched columns to the standard field names
and cleans every column with `clean_invalid_content`
(`process_non_self_purchase_components.py` lines 189-210): every field is a
cleaned cell, `none` when missing. -/
structure NSPRecord where
  moduleName : Option String
  designator : Option String
  supplierPart : Option String
  componentType : Option String
  manufacturerPart : Option String
  manufacturer : Option String
deriving DecidableEq, Repr

/-- `deduplicate_components` (`process_non_self_purchase_components.py`
lines 219-230): `drop_duplicates(subset=['Supplier Part'], keep='first')`
over the concatenated record sequence; pandas treats `NaN` Supplier Parts as
equal, mirrored by `Option` equality on the key. -/
def deduplicate_components (l : List NSPRecord) : List NSPRecord :=
  dedupByKey NSPRecord.supplierPart l

theorem dedupGo_first_occurrence {α κ : Type} [DecidableEq κ] (key : α → κ) :
    ∀ (pre : List α) (r : α) (post : List α) (seen : List κ),
      key r ∉ seen → (∀ x ∈ pre, key x ≠ key r) →
      r ∈ dedupGo key seen (pre ++ r :: post) := by
  intro pre
  induction pre with
  | nil =>
    intro r post seen hseen _
    simp only [List.nil_append, dedupGo, if_neg hseen]
    exact List.mem_cons_self _ _
  | cons p ps ih =>
    intro r post seen hseen hpre
    have hp : key p ≠ key r := hpre p (List.mem_cons_self _ _)
    have hps : ∀ x ∈ ps, key x ≠ key r :=
      fun x hx => hpre x (List.mem_cons_of_mem _ hx)
    simp only [List.cons_append, dedupGo]
    by_cases hk : key p ∈ seen
    · rw [if_pos hk]; exact ih r post seen hseen hps
    · rw [if_neg hk]
      refine List.mem_cons_of_mem _ (ih r post (key p :: seen) ?_ hps)
      intro hmem
      rcases List.mem_cons.mp hmem with h1 | h1
      · exact hp h1.symm
      · exact hseen h1

theorem map_nodup_eq_of_eq_key {α κ : Type} [DecidableEq κ] (key : α → κ) :
    ∀ (m : List α), (m.map key).Nodup →
      ∀ x ∈ m, ∀ y ∈ m, key x = key y → x = y := by
  intro m
  induction m with
  | nil => intro _ x hx; exact absurd hx (by simp)
  | cons a t ih =>
    intro hnodup x hx y hy hxy
    have hna : key a ∉ t.map key := (List.nodup_cons.mp (by simpa using hnodup)).1
    have hnt : (t.map key).Nodup := (List.nodup_cons.mp (by simpa using hnodup)).2
    rcases List.mem_cons.mp hx with h1 | h1 <;> rcases List.mem_cons.mp hy with h2 | h2
    · rw [h1, h2]
    · exfalso; apply hna
      rw [h1] at hxy
      exact hxy ▸ List.mem_map_of_mem key h2
    · exfalso; apply hna
      rw [h2] at hxy
      exact hxy ▸ List.mem_map_of_mem key h1
    · exact ih hnt x h1 y h2 hxy

theorem filter_key_length_le_one {α κ : Type} [DecidableEq κ] (key : α → κ) (k : κ) :
    ∀ (m : List α), (m.map key).Nodup →
      (m.filter (fun x => decide (key x = k))).length ≤ 1 := by
  intro m
  induction m with
  | nil => intro _; simp
  | cons a t ih =>
    intro hnodup
    have hna : key a ∉ t.map key := (List.nodup_cons.mp (by simpa using hnodup)).1
    have hnt : (t.map key).Nodup := (List.nodup_cons.mp (by simpa using hnodup)).2
    rw [List.filter_cons]
    by_cases h : decide (key a = k)
    · rw [if_pos (by simpa using h)]
      have hempty : t.filter (fun x => decide (key x = k)) = [] := by
        rw [List.filter_eq_nil_iff]
        intro x hx hkx
        apply hna
        have : key x = k := by simpa using hkx
        have hak : key a = k := by simpa using h
        rw [hak, ← this]
        exact List.mem_map_of_mem key hx
      simp [hempty]
    · rw [if_neg (by simpa using h)]
      exact ih hnt

/-- **C9.** In the non-self-purchase pipeline all records whose Supplier Part
is missing (cleaned to `none`) share the deduplication key, so whenever the
input sequence contains a record with missing Supplier Part whose
predecessors all have a present Supplier Part (i.e. the first such record),
that record survives deduplication unchanged, it is the only surviving record
with a missing Supplier Part, and at most one record with a missing Supplier
Part survives — even when the records differ in every other field. -/
theorem dedup_missing_supplier_first
    (l pre post : List NSPRecord) (r : NSPRecord)
    (hl : l = pre ++ r :: post)
    (hpre : ∀ x ∈ pre, x.supplierPart ≠ none)
    (hr : r.supplierPart = none) :
    r ∈ deduplicate_components l ∧
    (∀ x ∈ deduplicate_components l, x.supplierPart = none → x = r) ∧
    ((deduplicate_components l).filter
      (fun x => decide (x.supplierPart = none))).length ≤ 1 := by
  have hmem : r ∈ deduplicate_components l := by
    rw [hl]
    apply dedupGo_first_occurrence NSPRecord.supplierPart pre r post []
    · simp
    · intro x hx
      rw [hr]; exact hpre x hx
  have hnodup : ((deduplicate_components l).map NSPRecord.supplierPart).Nodup :=
    dedupGo_keys_nodup NSPRecord.supplierPart l []
  refine ⟨hmem, ?_, ?_⟩
  · intro x hx hxnone
    exact map_nodup_eq_of_eq_key NSPRecord.supplierPart _ hnodup x hx r hmem
      (by rw [hxnone, hr])
  · exact filter_key_length_le_one NSPRecord.supplierPart none _ hnodup

/-- Concrete first record with a missing Supplier Part. -/
def nspA : NSPRecord :=
  { moduleName := some "BOM_Alpha", designator := some "R1",
    supplierPart := none, componentType := some "电阻",
    manufacturerPart := some "RC0402", manufacturer := some "UNI-ROYAL" }

/-- A second record with a missing Supplier Part differing in every other
field. -/
def nspB : NSPRecord :=
  { moduleName := some "BOM_Beta", designator := some "C7",
    supplierPart := none, componentType := some "电容",
    manufacturerPart := some "CL05A", manufacturer := some "SAMSUNG" }

/-- Witness for C9 at a concrete two-record input: both records have a
missing Supplier Part and differ in every other field, yet only the first
survives deduplication. -/
theorem dedup_missing_supplier_first_witness :
    nspA ∈ deduplicate_components [nspA, nspB] ∧
    (∀ x ∈ deduplicate_components [nspA, nspB], x.supplierPart = none → x = nspA) ∧
    ((deduplicate_components [nspA, nspB]).filter
      (fun x => decide (x.supplierPart = none))).length ≤ 1 :=
  dedup_missing_supplier_first [nspA, nspB] [] [nspB] nspA rfl
    (by intro x hx; exact absurd hx (by simp)) rfl

/-- The special-record condition of `split_regular_special`
(`process_non_self_purchase_components.py` lines 241-243): missing
Designator, or missing Supplier Part, or component type classified as the
catch-all `其他`. -/
def specialCond (r : NSPRecord) : Bool :=
  r.designator.isNone || r.supplierPart.isNone ||
    decide (r.componentType = some "其他")

/-- `split_regular_special` (lines 233-246): the deduplicated records are
split into the regular rows (condition false) and the special rows
(condition true); the subsequent column projection and `fillna` are
rendering-side and modelled separately below. -/
def split_regular_special (l : List NSPRecord) : List NSPRecord × List NSPRecord :=
  (l.filter (fun r => !(specialCond r)), l.filter specialCond)

/-- `fillna('无')` on a cleaned cell (lines 266-267). -/
def fillNone (v : Option String) : String :=
  v.getD "无"

/-- The regular-table projection (lines 249-254): component type, part name,
part number. -/
def regularProjection (r : NSPRecord) : String × String × String :=
  (fillNone r.componentType, fillNone r.manufacturerPart, fillNone r.supplierPart)

/-- The special-table projection (lines 257-263): module name plus the three
regular columns. -/
def specialProjection (r : NSPRecord) : String × String × String × String :=
  (fillNone r.moduleName, fillNone r.componentType,
   fillNone r.manufacturerPart, fillNone r.supplierPart)

theorem split_lengths (l : List NSPRecord) :
    (split_regular_special l).1.length + (split_regular_special l).2.length = l.length := by
  simp only [split_regular_special]
  induction l with
  | nil => rfl
  | cons r rs ih =>
    simp only [List.filter_cons]
    by_cases h : specialCond r
    · rw [if_neg (by simp [h]), if_pos (by simp [h])]
      simp only [List.length_cons]
      omega
    · rw [if_pos (by simp [h]), if_neg (by simp [h])]
      simp only [List.length_cons]
      omega

/-- **C10.** The regular/special split partitions its input: a record goes to
the special output iff it is in the input and its Designator is missing, or
its Supplier Part is missing, or its component category is the catch-all
`其他`; it goes to the regular output iff it is in the input and none of
those hold; and the two output lengths sum to the input length, so every
deduplicated record lands in exactly one side. -/
theorem split_regular_special_partition :
    ∀ (l : List NSPRecord) (r : NSPRecord),
      (r ∈ (split_regular_special l).2 ↔
        r ∈ l ∧ (r.designator = none ∨ r.supplierPart = none ∨
          r.componentType = some "其他")) ∧
      (r ∈ (split_regular_special l).1 ↔
        r ∈ l ∧ ¬(r.designator = none ∨ r.supplierPart = none ∨
          r.componentType = some "其他")) ∧
      (split_regular_special l).1.length + (split_regular_special l).2.length
        = l.length := by
  intro l r
  have hcond : ∀ x : NSPRecord, specialCond x = true ↔
      (x.designator = none ∨ x.supplierPart = none ∨ x.componentType = some "其他") := by
    intro x
    simp [specialCond, Option.isNone_iff_eq_none, or_assoc]
  refine ⟨?_, ?_, split_lengths l⟩
  · simp only [split_regular_special, List.mem_filter]
    constructor
    · rintro ⟨h1, h2⟩; exact ⟨h1, (hcond r).mp h2⟩
    · rintro ⟨h1, h2⟩; exact ⟨h1, (hcond r).mpr h2⟩
  · simp only [split_regular_special, List.mem_filter, Bool.not_eq_true']
    constructor
    · rintro ⟨h1, h2⟩
      refine ⟨h1, fun hh => ?_⟩
      rw [(hcond r).mpr hh] at h2
      cases h2
    · rintro ⟨h1, h2⟩
      refine ⟨h1, ?_⟩
      cases hsc : specialCond r
      · rfl
      · exact absurd ((hcond r).mp hsc) h2

/-- Consume one-or-more digits (`\d+`): `some rest` when the list starts with
a digit, with `rest` the input after the maximal digit run. -/
def dropDigits1 : List Char → Option (List Char)
  | [] => none
  | c :: cs => if c.isDigit then some (cs.dropWhile Char.isDigit) else none

/-- Extension tail `(xlsx|xls)$` — the accessory pattern only allows
`xlsx`. -/
def extOk (allowXls : Bool) (l : List Char) : Bool :=
  l = ['x', 'l', 's', 'x'] || (allowXls && decide (l = ['x', 'l', 's']))

/-- Remainder after the minor version digits:
`(\.\d+)?\.(xlsx|xls)$`. -/
def afterMinor (allowXls : Bool) : List Char → Bool
  | '.' :: rest =>
    extOk allowXls rest ||
      (match dropDigits1 rest with
       | some rest2 =>
         match rest2 with
         | '.' :: rest3 => extOk allowXls rest3
         | _ => false
       | none => false)
  | _ => false

/-- The version-and-extension tail `-v\d+\.\d+(\.\d+)?\.(xlsx|xls)$` of the
file-name patterns, with the version-tag letter `vch` compared exactly. -/
def versionSuffix (vch : Char) (allowXls : Bool) : List Char → Bool
  | '-' :: v :: rest =>
    v == vch &&
      (match dropDigits1 rest with
       | some r1 =>
         (match r1 with
          | '.' :: r2 =>
            (match dropDigits1 r2 with
             | some r3 => afterMinor allowXls r3
             | none => false)
          | _ => false)
       | none => false)
  | _ => false

/-- Greedy split of the part after the fixed prefix: the longest module part
`m` (possibly empty) such that the remainder is a valid version suffix, which
is exactly what the greedy `(.+)` capture of the source regexes selects. -/
def lsplit0 (vch : Char) (allowXls : Bool) : List Char → Option (List Char)
  | [] => none
  | c :: cs =>
    match lsplit0 vch allowXls cs with
    | some m => some (c :: m)
    | none => if versionSuffix vch allowXls (c :: cs) then some [] else none

/-- The module-name substitution of `extract_bom_components.py` line 80:
`re.sub(r'^BOM_(.+)-v\d+\.\d+(\.\d+)?\.(xlsx|xls)$', r'\1', file_name,
re.IGNORECASE)`.  Because `re.IGNORECASE` is passed positionally it binds the
`count` parameter, not `flags`, so the substitution pattern is
case-sensitive: the literal `BOM_` and the `v` of the version tag must match
exactly, and a non-matching name is returned unchanged. -/
def bom_module_name (name : String) : String :=
  match name.data with
  | 'B' :: 'O' :: 'M' :: '_' :: rest =>
    (match lsplit0 'v' true rest with
     | some (c :: m) => String.mk (c :: m)
     | _ => name)
  | _ => name

/-- The BOM discovery pattern of `extract_bom_components.py` line 18:
`re.compile(r'^BOM_.+-v\d+\.\d+(\.\d+)?\.(xlsx|xls)$', re.IGNORECASE)`,
here genuinely case-insensitive (the flag is passed correctly to
`re.compile`). -/
def bom_file_match (name : String) : Bool :=
  match name.data.map Char.toLower with
  | 'b' :: 'o' :: 'm' :: '_' :: rest =>
    (match lsplit0 'v' true rest with
     | some (_ :: _) => true
     | _ => false)
  | _ => false

/-- The module-name substitution of `modacc_accessory_processor.py`
lines 103-108, with the same `count`-for-`flags` slip: the literal `ModAcc_`
and the upper-case `V` must match exactly. -/
def modacc_module_name (name : String) : String :=
  match name.data with
  | 'M' :: 'o' :: 'd' :: 'A' :: 'c' :: 'c' :: '_' :: rest =>
    (match lsplit0 'V' false rest with
     | some (c :: m) => String.mk (c :: m)
     | _ => name)
  | _ => name

/-- The accessory discovery pattern of `modacc_accessory_processor.py`
line 27: `^ModAcc_.+-V\d+\.\d+(\.\d+)?\.xlsx$`, case-insensitive. -/
def modacc_file_match (name : String) : Bool :=
  match name.data.map Char.toLower with
  | 'm' :: 'o' :: 'd' :: 'a' :: 'c' :: 'c' :: '_' :: rest =>
    (match lsplit0 'v' false rest with
     | some (_ :: _) => true
     | _ => false)
  | _ => false

/-- **C4.** The claim that every discovered file gets the `<module>` part of
its name as module name fails: discovery is case-insensitive, but the
module-stripping `re.sub` calls pass `re.IGNORECASE` as the positional
`count` argument instead of `flags`, so stripping is case-sensitive.  The
file `bom_PowerModule-v1.2.0.xlsx` is discovered, yet its module name stays
the whole file name instead of `PowerModule` (same for an accessory file
with a lower-case `-v` tag); exactly-cased names still round-trip as the
spec's example requires. -/
theorem bom_module_name_bug :
    bom_file_match "bom_PowerModule-v1.2.0.xlsx" = true ∧
    bom_module_name "bom_PowerModule-v1.2.0.xlsx" = "bom_PowerModule-v1.2.0.xlsx" ∧
    bom_module_name "bom_PowerModule-v1.2.0.xlsx" ≠ "PowerModule" ∧
    bom_module_name "BOM_PowerModule-v1.2.0.xlsx" = "PowerModule" ∧
    modacc_file_match "ModAcc_MG811-v1.2.0.xlsx" = true ∧
    modacc_module_name "ModAcc_MG811-v1.2.0.xlsx" = "ModAcc_MG811-v1.2.0.xlsx" ∧
    modacc_module_name "ModAcc_MG811-V1.2.0.xlsx" = "MG811" := by
  refine ⟨rfl, rfl, ?_, rfl, rfl, rfl, rfl⟩
  intro h
  have : ("bom_PowerModule-v1.2.0.xlsx" : String) = "PowerModule" := by
    rw [← h]; rfl
  simp at this

/-- The per-module total of `groupby('模块名称')['Value'].sum()`
(`extract_bom_components.py` line 96, `modacc_accessory_processor.py`
line 131), over the full pre-deduplication record sequence: the sum of the
`Value` contributions of the records of one module. -/
def moduleTotalBy {α : Type} (modOf : α → String) (valOf : α → ℚ)
    (l : List α) (m : String) : ℚ :=
  ((l.filter (fun r => decide (modOf r = m))).map valOf).sum

/-- Grand total as computed by `extract_bom_components.py` line 194: after
merging each module's total onto its rows, drop duplicate module names
(keeping the first row of each module) and sum the attached totals — one
total per distinct module. -/
def grandTotalPerModule {α : Type} (modOf : α → String) (valOf : α → ℚ)
    (l : List α) : ℚ :=
  ((dedupByKey modOf l).map (fun r => moduleTotalBy modOf valOf l (modOf r))).sum

/-- Grand total as computed by `modacc_accessory_processor.py` line 263:
`df_total['模块配件总金额'].unique().sum()` — the module-total column lists,
per record, its module's total; `unique()` keeps the distinct *values* of
that column in first-seen order, and those values are summed. -/
def grandTotalUniqueTotals {α : Type} (modOf : α → String) (valOf : α → ℚ)
    (l : List α) : ℚ :=
  (dedupByKey (fun q : ℚ => q) (l.map (fun r => moduleTotalBy modOf valOf l (modOf r)))).sum

theorem moduleTotalBy_cons {α : Type} (modOf : α → String) (valOf : α → ℚ)
    (r : α) (rs : List α) (m : String) :
    moduleTotalBy modOf valOf (r :: rs) m =
      (if modOf r = m then valOf r else 0) + moduleTotalBy modOf valOf rs m := by
  simp only [moduleTotalBy, List.filter_cons]
  by_cases h : modOf r = m
  · rw [if_pos (by simpa using h), if_pos h]
    simp
  · rw [if_neg (by simpa using h), if_neg h]
    simp

theorem sum_map_ite_single {κ : Type} [DecidableEq κ] (v : ℚ) :
    ∀ (M : List κ) (k : κ), M.Nodup → k ∈ M →
      (M.map (fun m => if k = m then v else 0)).sum = v := by
  intro M
  induction M with
  | nil => intro k _ hk; exact absurd hk (by simp)
  | cons a t ih =>
    intro k hnodup hk
    simp only [List.map_cons, List.sum_cons]
    rcases List.mem_cons.mp hk with h1 | h1
    · rw [if_pos h1]
      have : ∀ m ∈ t, (if k = m then v else 0) = 0 := by
        intro m hm
        rw [if_neg]
        intro hkm
        exact (List.nodup_cons.mp hnodup).1 (h1 ▸ hkm ▸ hm)
      rw [List.sum_eq_zero]
      · ring
      · intro x hx
        rcases List.mem_map.mp hx with ⟨m, hm, hxm⟩
        rw [← hxm]; exact this m hm
    · rw [if_neg]
      · rw [ih k (List.nodup_cons.mp hnodup).2 h1]
        ring
      · intro hak
        exact (List.nodup_cons.mp hnodup).1 (hak ▸ h1)

theorem sum_map_add {κ : Type} (f g : κ → ℚ) :
    ∀ M : List κ, (M.map (fun m => f m + g m)).sum = (M.map f).sum + (M.map g).sum := by
  intro M
  induction M with
  | nil => simp
  | cons a t ih =>
    simp only [List.map_cons, List.sum_cons, ih]
    ring

theorem sum_fibers_eq_total {α : Type} (modOf : α → String) (valOf : α → ℚ) :
    ∀ (l : List α) (M : List String), M.Nodup → (∀ x ∈ l, modOf x ∈ M) →
      (M.map (fun m => moduleTotalBy modOf valOf l m)).sum = (l.map valOf).sum := by
  intro l
  induction l with
  | nil =>
    intro M _ _
    have : ∀ m ∈ M, moduleTotalBy modOf valOf [] m = 0 := by
      intro m _; simp [moduleTotalBy]
    rw [List.sum_eq_zero]
    · simp
    · intro x hx
      rcases List.mem_map.mp hx with ⟨m, hm, hxm⟩
      rw [← hxm]; exact this m hm
  | cons r rs ih =>
    intro M hnodup hcov
    have hstep : (M.map (fun m => moduleTotalBy modOf valOf (r :: rs) m)).sum =
        (M.map (fun m => (if modOf r = m then valOf r else 0) +
          moduleTotalBy modOf valOf rs m)).sum := by
      congr 1
      apply List.map_congr_left
      intro m _
      exact moduleTotalBy_cons modOf valOf r rs m
    rw [hstep, sum_map_add, sum_map_ite_single (valOf r) M (modOf r) hnodup
      (hcov r (List.mem_cons_self _ _)),
      ih M hnodup (fun x hx => hcov x (List.mem_cons_of_mem _ hx))]
    simp

theorem dedupGo_covers {α κ : Type} [DecidableEq κ] (key : α → κ) :
    ∀ (l : List α) (seen : List κ) (x : α), x ∈ l →
      key x ∈ seen ∨ key x ∈ (dedupGo key seen l).map key := by
  intro l
  induction l with
  | nil => intro seen x hx; exact absurd hx (by simp)
  | cons r rs ih =>
    intro seen x hx
    rcases List.mem_cons.mp hx with h1 | h1
    · by_cases hk : key r ∈ seen
      · left; exact h1 ▸ hk
      · right
        simp only [dedupGo, if_neg hk, List.map_cons]
        exact h1 ▸ List.mem_cons_self _ _
    · by_cases hk : key r ∈ seen
      · simpa only [dedupGo, if_pos hk] using ih seen x h1
      · simp only [dedupGo, if_neg hk, List.map_cons]
        rcases ih (key r :: seen) x h1 with h2 | h2
        · rcases List.mem_cons.mp h2 with h3 | h3
          · right; exact h3 ▸ List.mem_cons_self _ _
          · left; exact h3
        · right; exact List.mem_cons_of_mem _ h2

/-- The aggregation invariant holds for the BOM pipeline's grand total
(`extract_bom_components.py` line 194): summing the per-module totals over
the distinct modules (first occurrence kept) equals the sum of every input
record's `Value` contribution, with exact equality. -/
theorem grandTotalPerModule_eq_sum {α : Type} (modOf : α → String) (valOf : α → ℚ)
    (l : List α) :
    grandTotalPerModule modOf valOf l = (l.map valOf).sum := by
  unfold grandTotalPerModule
  have hmm : ((dedupByKey modOf l).map (fun r => moduleTotalBy modOf valOf l (modOf r)))
      = (((dedupByKey modOf l).map modOf).map (fun m => moduleTotalBy modOf valOf l m)) := by
    rw [List.map_map]
    rfl
  rw [hmm]
  apply sum_fibers_eq_total
  · exact dedupGo_keys_nodup modOf l []
  · intro x hx
    rcases dedupGo_covers modOf l [] x hx with h | h
    · exact absurd h (by simp)
    · exact h

/-- A canonical accessory record of the ModAcc pipeline
(`modacc_accessory_processor.py` lines 97-111): the core columns with the
numeric ones coerced, plus the module name. -/
structure MRecord where
  moduleName : String
  seqNo : Option String
  quantity : ℚ
  manufacturerPart : Option String
  price : ℚ
  value : ℚ
  taobaoLink : Option String
  orderConfig : Option String
  minOrder : Option String
deriving DecidableEq, Repr

/-- Two accessory records in different modules carrying the same `Value`, so
that both module totals are the same number. -/
def mrecA : MRecord :=
  { moduleName := "A", seqNo := some "1", quantity := 1,
    manufacturerPart := some "Bolt", price := 5, value := 5,
    taobaoLink := some "http:item-a", orderConfig := none, minOrder := none }

/-- Second record, module `B`, also total 5. -/
def mrecB : MRecord :=
  { moduleName := "B", seqNo := some "1", quantity := 1,
    manufacturerPart := some "Nut", price := 5, value := 5,
    taobaoLink := some "http:item-b", orderConfig := none, minOrder := none }

/-- The ModAcc grand total over a concrete record list. -/
def modaccDemo : List MRecord := [mrecA, mrecB]

/-- **C1.** The aggregation claim fails in the ModAcc pipeline: the per-module
totals are indeed computed over the pre-deduplication records (modules `A`
and `B` each total 5), and the sum of all record contributions is 10, but the
grand total the run reports is `unique()` of the module-total *column*
summed — distinct modules with equal totals collapse, so the reported grand
total is 5, not 10.  (The BOM pipeline's grand total, which drops duplicate
module *names* instead of duplicate total *values*, does satisfy the
invariant: see `grandTotalPerModule_eq_sum`.) -/
theorem modacc_grand_total_bug :
    moduleTotalBy MRecord.moduleName MRecord.value modaccDemo "A" = 5 ∧
    moduleTotalBy MRecord.moduleName MRecord.value modaccDemo "B" = 5 ∧
    (modaccDemo.map MRecord.value).sum = 10 ∧
    grandTotalUniqueTotals MRecord.moduleName MRecord.value modaccDemo = 5 ∧
    grandTotalUniqueTotals MRecord.moduleName MRecord.value modaccDemo ≠
      (modaccDemo.map MRecord.value).sum ∧
    grandTotalPerModule MRecord.moduleName MRecord.value modaccDemo = 10 := by
  have hA : moduleTotalBy MRecord.moduleName MRecord.value modaccDemo "A" = 5 := by
    show ((modaccDemo.filter (fun r => decide (r.moduleName = "A"))).map MRecord.value).sum = 5
    rw [show (modaccDemo.filter (fun r => decide (r.moduleName = "A"))) = [mrecA] from rfl]
    show (mrecA.value + 0 : ℚ) = 5
    norm_num [mrecA]
  have hB : moduleTotalBy MRecord.moduleName MRecord.value modaccDemo "B" = 5 := by
    show ((modaccDemo.filter (fun r => decide (r.moduleName = "B"))).map MRecord.value).sum = 5
    rw [show (modaccDemo.filter (fun r => decide (r.moduleName = "B"))) = [mrecB] from rfl]
    show (mrecB.value + 0 : ℚ) = 5
    norm_num [mrecB]
  have hsum : (modaccDemo.map MRecord.value).sum = 10 := by
    show (mrecA.value + (mrecB.value + 0) : ℚ) = 10
    norm_num [mrecA, mrecB]
  have huniq : grandTotalUniqueTotals MRecord.moduleName MRecord.value modaccDemo = 5 := by
    unfold grandTotalUniqueTotals
    rw [show (modaccDemo.map
        (fun r => moduleTotalBy MRecord.moduleName MRecord.value modaccDemo (MRecord.moduleName r)))
      = [moduleTotalBy MRecord.moduleName MRecord.value modaccDemo "A",
         moduleTotalBy MRecord.moduleName MRecord.value modaccDemo "B"] from rfl, hA, hB]
    rw [show dedupByKey (fun q : ℚ => q) [(5:ℚ), 5] = [(5:ℚ)] from rfl]
    show ((5:ℚ) + 0) = 5
    norm_num
  have hper : grandTotalPerModule MRecord.moduleName MRecord.value modaccDemo = 10 := by
    rw [grandTotalPerModule_eq_sum, hsum]
  refine ⟨hA, hB, hsum, huniq, ?_, hper⟩
  rw [huniq, hsum]
  norm_num

/-- Digit run to a natural number. -/
def digitsToNat (ds : List Char) : ℕ :=
  ds.foldl (fun a c => a * 10 + (c.toNat - 48)) 0

/-- Plain decimal parsing modelling `pd.to_numeric` on the numeric cells the
pipeline handles (optional sign, integer part, optional fraction part);
anything else fails and falls to the coercion fallback. -/
def parseDecimal (l : List Char) : Option ℚ :=
  let sgn : ℚ := match l with
    | '-' :: _ => -1
    | _ => 1
  let l1 : List Char := match l with
    | '-' :: t => t
    | '+' :: t => t
    | _ => l
  let ip := l1.takeWhile Char.isDigit
  let l2 := l1.dropWhile Char.isDigit
  match l2 with
  | [] => if ip = [] then none else some (sgn * (digitsToNat ip : ℚ))
  | '.' :: t =>
    let fp := t.takeWhile Char.isDigit
    let l3 := t.dropWhile Char.isDigit
    if l3 = [] && !(ip = [] && fp = []) then
      some (sgn * ((digitsToNat ip : ℚ) + (digitsToNat fp : ℚ) / (10 ^ fp.length)))
    else none
  | _ => none

/-- `pd.to_numeric(..., errors='coerce').fillna(0)` on a string cell
(`extract_bom_components.py` lines 76-77, `modacc_accessory_processor.py`
lines 98-100): unparseable or missing values become 0. -/
def to_numeric_coerce (v : Option String) : ℚ :=
  match v with
  | none => 0
  | some s => (parseDecimal (stripList s.data)).getD 0

/-- Cell access in a row (association list keyed by header). -/
def getCell (row : List (String × Option String)) (h : String) : Option String :=
  match row.find? (fun p => p.1 == h) with
  | some p => p.2
  | none => none

/-- One source table as handed over by the table reader: file name, header
row and data rows. -/
structure RawFile where
  name : String
  headers : List String
  rows : List (List (String × Option String))
deriving DecidableEq, Repr

/-- The mandatory core columns of the BOM extractor
(`extract_bom_components.py` lines 21-24). -/
def core_columns : List String :=
  ["Manufacturer Part", "Quantity", "Designator", "Supplier Part",
   "LCSC Price", "Value", "淘宝链接", "下单配置", "最小起订量"]

/-- The self-purchase indicator columns (`extract_bom_components.py`
line 26). -/
def filter_columns : List String :=
  ["淘宝链接", "下单配置", "最小起订量"]

/-- Header stripping `df.columns.str.strip()` applied to a row's keys. -/
def stripRowKeys (row : List (String × Option String)) : List (String × Option String) :=
  row.map (fun p => (stripString p.1, p.2))

/-- The mandatory columns a file fails to provide, after header stripping
(`extract_bom_components.py` line 57). -/
def missingColsOf (f : RawFile) : List String :=
  core_columns.filter (fun c => !((f.headers.map stripString).contains c))

/-- The row filter of `extract_bom_components.py` lines 64-68: a row is kept
as self-purchase when any indicator column has content. -/
def rowSelfPurchase (row : List (String × Option String)) : Bool :=
  filter_columns.any (fun c => cellHasContent (getCell row c))

/-- A canonical BOM record (`extract_bom_components.py` lines 75-83): the
core columns with `Quantity`, `LCSC Price` and `Value` numerically coerced,
plus the module name derived from the file name. -/
structure BRecord where
  moduleName : String
  manufacturerPart : Option String
  quantity : ℚ
  designator : Option String
  supplierPart : Option String
  lcscPrice : ℚ
  value : ℚ
  taobaoLink : Option String
  orderConfig : Option String
  minOrder : Option String
deriving DecidableEq, Repr

/-- Build one BOM record from a kept row. -/
def bomRowRecord (moduleName : String) (row : List (String × Option String)) : BRecord :=
  { moduleName := moduleName,
    manufacturerPart := getCell row "Manufacturer Part",
    quantity := to_numeric_coerce (getCell row "Quantity"),
    designator := getCell row "Designator",
    supplierPart := getCell row "Supplier Part",
    lcscPrice := to_numeric_coerce (getCell row "LCSC Price"),
    value := to_numeric_coerce (getCell row "Value"),
    taobaoLink := getCell row "淘宝链接",
    orderConfig := getCell row "下单配置",
    minOrder := getCell row "最小起订量" }

/-- Per-file processing of the BOM extractor (`extract_bom_components.py`
lines 54-84): strip the headers; if any mandatory core column is missing,
skip the whole file with a diagnostic naming the missing columns; otherwise
keep the self-purchase rows, coerce the numeric columns and attach the
module name. -/
def processBOMFile (f : RawFile) : Except (String × List String) (List BRecord) :=
  if missingColsOf f ≠ [] then
    Except.error (f.name, missingColsOf f)
  else
    Except.ok (((f.rows.map stripRowKeys).filter rowSelfPurchase).map
      (bomRowRecord (bom_module_name f.name)))

/-- The records a file contributes to the run (a skipped file contributes
none). -/
def recordsOf (f : RawFile) : List BRecord :=
  match processBOMFile f with
  | Except.ok rs => rs
  | Except.error _ => []

/-- All records of a run: per-file record lists concatenated in discovery
order (`all_self_purchase` / `pd.concat`, lines 83 and 93). -/
def extractedRecords (files : List RawFile) : List BRecord :=
  (files.map recordsOf).flatten

/-- The diagnostics of a run: one entry per skipped file, naming the file and
its missing mandatory columns (line 59). -/
def fileDiagnostics (files : List RawFile) : List (String × List String) :=
  files.filterMap (fun f =>
    match processBOMFile f with
    | Except.error d => some d
    | Except.ok _ => none)

theorem recordsOf_eq_nil_of_missing (f : RawFile) (hm : missingColsOf f ≠ []) :
    recordsOf f = [] := by
  simp only [recordsOf, processBOMFile, if_pos hm]

theorem extractedRecords_eq_good (files : List RawFile) :
    extractedRecords files =
      extractedRecords (files.filter (fun g => decide (missingColsOf g = []))) := by
  induction files with
  | nil => rfl
  | cons g gs ih =>
    simp only [extractedRecords, List.map_cons, List.flatten_cons, List.filter_cons]
    have ih2 : (gs.map recordsOf).flatten =
        ((gs.filter (fun g => decide (missingColsOf g = []))).map recordsOf).flatten := ih
    by_cases h : missingColsOf g = []
    · rw [if_pos (by simpa using h)]
      simp only [List.map_cons, List.flatten_cons]
      rw [ih2]
    · rw [if_neg (by simpa using h)]
      rw [recordsOf_eq_nil_of_missing g h]
      simp only [List.nil_append]
      exact ih2

/-- **C6.** A file whose resolved (stripped) headers lack at least one
mandatory core column is skipped entirely: its processing result is exactly
the error naming the missing columns, it contributes zero records to the
run, the run's diagnostics contain that entry, and the run's records equal
those of the runs over only the well-formed files — so all other files are
processed unaffected. -/
theorem processBOMFile_skips_missing (files : List RawFile) (f : RawFile)
    (hf : f ∈ files) (hm : missingColsOf f ≠ []) :
    processBOMFile f = Except.error (f.name, missingColsOf f) ∧
    recordsOf f = [] ∧
    (f.name, missingColsOf f) ∈ fileDiagnostics files ∧
    extractedRecords files =
      extractedRecords (files.filter (fun g => decide (missingColsOf g = []))) := by
  have herr : processBOMFile f = Except.error (f.name, missingColsOf f) := by
    simp only [processBOMFile, if_pos hm]
  refine ⟨herr, recordsOf_eq_nil_of_missing f hm, ?_, extractedRecords_eq_good files⟩
  apply List.mem_filterMap.mpr
  exact ⟨f, hf, by rw [herr]⟩

/-- A well-formed BOM file with every mandatory column and one self-purchase
row. -/
def bomGoodFile : RawFile :=
  { name := "BOM_Sensor-v1.0.xlsx",
    headers := ["Manufacturer Part", "Quantity", "Designator", "Supplier Part",
      "LCSC Price", "Value", "淘宝链接", "下单配置", "最小起订量"],
    rows := [[("Manufacturer Part", some "RC0402"), ("Quantity", some "5"),
      ("Designator", some "R1"), ("Supplier Part", some "C25111"),
      ("LCSC Price", some "0.4"), ("Value", some "2"),
      ("淘宝链接", some "http:item"), ("下单配置", none), ("最小起订量", none)]] }

/-- A BOM file missing most mandatory columns. -/
def bomBadFile : RawFile :=
  { name := "BOM_Power-v2.0.xlsx",
    headers := ["Manufacturer Part", "Quantity"],
    rows := [[("Manufacturer Part", some "X"), ("Quantity", some "1")]] }

/-- Witness for C6 at a concrete two-file run: the malformed file is skipped
with a diagnostic naming its missing columns and contributes nothing, while
the well-formed file's records are untouched. -/
theorem processBOMFile_skips_missing_witness :
    processBOMFile bomBadFile = Except.error (bomBadFile.name, missingColsOf bomBadFile) ∧
    recordsOf bomBadFile = [] ∧
    (bomBadFile.name, missingColsOf bomBadFile) ∈ fileDiagnostics [bomGoodFile, bomBadFile] ∧
    extractedRecords [bomGoodFile, bomBadFile] =
      extractedRecords ([bomGoodFile, bomBadFile].filter
        (fun g => decide (missingColsOf g = []))) :=
  processBOMFile_skips_missing [bomGoodFile, bomBadFile] bomBadFile
    (by simp) (by decide)
